import Mathlib

/-!
Formal model of the CRAWLER repository's chunking / retrieval pipeline.

Strings are modelled as `List Char`.  Python integers are `Nat`; the float
ratio and distance arithmetic of the source are modelled exactly over `ℚ`.
Fallible collaborators (the Bedrock embedding call, the S3 vector backend,
the GitHub content fetcher) are modelled as `Option`-valued parameters:
`none` stands for the call raising (resp. returning `None`).
-/

namespace Crawler

/-- Python `str.isspace` characters as used by `str.strip()` with no
argument: space, tab, newline, carriage return, vertical tab, form feed. -/
def pyIsSpace (c : Char) : Bool :=
  c = ' ' || c = '\t' || c = '\n' || c = '\r' || c = '\x0b' || c = '\x0c'

/-- Python `str.strip()`: remove leading and trailing whitespace. -/
def pyStrip (s : List Char) : List Char :=
  (((s.dropWhile pyIsSpace).reverse).dropWhile pyIsSpace).reverse

/-- Decimal digit character, for rendering chunk indices (`f"...{i}"`). -/
def digitChar : Nat → Char
  | 0 => '0' | 1 => '1' | 2 => '2' | 3 => '3' | 4 => '4'
  | 5 => '5' | 6 => '6' | 7 => '7' | 8 => '8' | _ => '9'

/-- Numeric value of a decimal digit character. -/
def digitVal (c : Char) : Nat := c.toNat - 48

/-- Decimal rendering of a natural number, as Python's `str(i)` /
f-string interpolation of a non-negative int. -/
def natRepr (n : Nat) : List Char :=
  if h : n < 10 then [digitChar n]
  else natRepr (n / 10) ++ [digitChar (n % 10)]
termination_by n
decreasing_by
  exact Nat.div_lt_self (by omega) (by omega)

/-- Reads a digit string back into a number (proof tool for injectivity of
`natRepr`). -/
def ofDigits (l : List Char) : Nat :=
  l.foldl (fun a c => 10 * a + digitVal c) 0

/-! ## Text Segmentation Engine

Modelled from the spec: the Text Segmentation Engine (spec section 4.1).
Its implementation in the source is the third-party langchain
`RecursiveCharacterTextSplitter`, which is not part of this repository;
only its configuration (separator hierarchy, `chunk_size`, `chunk_overlap`)
appears in `MarkdownProcessor.__init__`.  The definitions below follow the
spec's recursive-separator algorithm: try separators of decreasing
granularity, greedily accumulate pieces up to `maxSize`, carry a trailing
`overlap` into the next buffer, recurse into oversized pieces with finer
separators, and cut at exact character offsets at the character fallback. -/

/-- Modelled from the spec: the character-level fallback — "if at the
character-level fallback it still must be cut, cut at the exact character
offset".  (`max 1` only guards totality for the degenerate `maxSize = 0`,
which the configuration contract excludes.) -/
def chopChars (maxSize : Nat) (s : List Char) : List (List Char) :=
  if s = [] then []
  else if s.length ≤ maxSize then [s]
  else s.take (max 1 maxSize) :: chopChars maxSize (s.drop (max 1 maxSize))
termination_by s.length
decreasing_by
  rename_i h1 h2
  simp only [List.length_drop]
  have : 0 < s.length := List.length_pos.mpr h1
  omega

/-- Index of the first occurrence of `sep` in `s`, if any. -/
def findSepIdx (sep s : List Char) : Option Nat :=
  (List.range s.length).find? (fun i => sep.isPrefixOf (s.drop i))

/-- Modelled from the spec: "split the span on it".  Splits `s` at each
occurrence of `sep`, keeping the separator attached to the end of the
preceding piece, so that the pieces concatenate back to `s` (chunks are
substrings of the document).  The empty separator splits into single
characters (the character-level granularity of the hierarchy). -/
def splitKeepSep (sep s : List Char) : List (List Char) :=
  if hs : s = [] then []
  else if hsep : sep = [] then s.map (fun c => [c])
  else
    match findSepIdx sep s with
    | none => [s]
    | some i => s.take (i + sep.length) :: splitKeepSep sep (s.drop (i + sep.length))
termination_by s.length
decreasing_by
  simp only [List.length_drop]
  have hlen : 0 < s.length := List.length_pos.mpr hs
  have hsl : 0 < sep.length := List.length_pos.mpr hsep
  omega

/-- Modelled from the spec: steps 2–4 of the splitting algorithm for one
separator level.  Greedily accumulates consecutive pieces into `buf` until
adding the next piece would exceed `maxSize`; on emitting a buffer, the next
buffer repeats the trailing `overlap` characters of the previous one (the
carry is dropped when it would not fit together with the next piece); a
single piece exceeding `maxSize` is recursed into via `recurse` (the next
finer-grained separator level). -/
def goPieces (maxSize overlap : Nat) (recurse : List Char → List (List Char))
    (buf : List Char) : List (List Char) → List (List Char)
  | [] => if buf = [] then [] else [buf]
  | p :: ps =>
    if p.length ≤ maxSize then
      if buf.length + p.length ≤ maxSize then
        goPieces maxSize overlap recurse (buf ++ p) ps
      else
        buf :: goPieces maxSize overlap recurse
          (if (buf.drop (buf.length - overlap)).length + p.length ≤ maxSize
           then buf.drop (buf.length - overlap) ++ p
           else p) ps
    else
      (if buf = [] then [] else [buf]) ++ recurse p ++ goPieces maxSize overlap recurse [] ps

/-- Modelled from the spec: recursive-separator splitting over an ordered
list of separators of decreasing granularity.  A span not exceeding
`maxSize` is one chunk (empty input produces zero chunks); otherwise it is
split at the current separator and the pieces are processed by `goPieces`. -/
def recSplit (maxSize overlap : Nat) : List (List Char) → List Char → List (List Char)
  | [], s => chopChars maxSize s
  | sep :: rest, s =>
    if s.length ≤ maxSize then (if s = [] then [] else [s])
    else goPieces maxSize overlap (recSplit maxSize overlap rest) [] (splitKeepSep sep s)

/-- `Slices s lo hi l` states that the strings in `l` all occur as
contiguous substrings of `s`, at non-decreasing start offsets drawn from
`[lo, hi]`: this is the formal rendering of "the chunks appear in document
order". -/
inductive Slices (s : List Char) : Nat → Nat → List (List Char) → Prop
  | nil {lo hi : Nat} : lo ≤ hi → Slices s lo hi []
  | cons {lo hi off : Nat} {c : List Char} {l : List (List Char)} :
      lo ≤ off → off ≤ hi → c = (s.drop off).take c.length →
      Slices s off hi l → Slices s lo hi (c :: l)

/-- The separator hierarchy configured in `MarkdownProcessor.__init__`:
paragraph breaks, line breaks, sentences, words, characters. -/
def markdownSeparators : List (List Char) :=
  [['\n', '\n'], ['\n'], ['.'], [' '], []]

/-- The segmentation step of the Markdown processor:
`self.text_splitter.split_text(processed_content)`. -/
def splitText (maxSize overlap : Nat) (text : List Char) : List (List Char) :=
  recSplit maxSize overlap markdownSeparators text

/-! ## Chunk entity and chunk assembly (`models/chunk.py`,
`MarkdownProcessor.chunkify_file`) -/

/-- A `Chunk` (`models/chunk.py`): content, source identifier, the
`chunk_index` entry of its metadata mapping, and the surrogate `chunk_id`
(a random uuid4 in the source, modelled by a caller-supplied generator). -/
structure MChunk where
  content : List Char
  source : List Char
  chunkIndex : Nat
  chunkId : List Char
deriving DecidableEq, Repr

/-- The literal `"#chunk-"` used in `chunk_source = f"{file_path}#chunk-{i}"`. -/
def chunkTag : List Char := "#chunk-".data

/-- The chunk-assembly loop of `MarkdownProcessor.chunkify_file`
(lines 120–153): `for i, chunk_text in enumerate(text_chunks)`, skipping
blank texts, with `chunk_index = i`, `source = f"{file_path}#chunk-{i}"`,
stripped content.  `i` counts all enumerated texts, including skipped
blanks.  `supply` models the uuid4 generator behind `Chunk.chunk_id`. -/
def assembleAux (supply : Nat → List Char) (fp : List Char) :
    Nat → List (List Char) → List MChunk
  | _, [] => []
  | i, t :: ts =>
    if pyStrip t = [] then assembleAux supply fp (i + 1) ts
    else
      { content := pyStrip t
        source := fp ++ chunkTag ++ natRepr i
        chunkIndex := i
        chunkId := supply i } :: assembleAux supply fp (i + 1) ts

/-- Chunk assembly over the segmentation output, starting at index 0. -/
def assembleChunks (supply : Nat → List Char) (fp : List Char)
    (texts : List (List Char)) : List MChunk :=
  assembleAux supply fp 0 texts

/-! ## Embedding & Persistence Gateway and Retrieval Engine
(`stores/s3_vector.py`) -/

/-- The record written to the S3 vector index for one chunk: the embedding
plus metadata carrying the full content, `chunk_size = chunk.size` and
`source` (`S3VectorStore.save_chunks`, lines 107–120). -/
structure VecRecord where
  embedding : List ℚ
  content : List Char
  chunkSize : Nat
  source : List Char
deriving DecidableEq

/-- The vector index, keyed by the storage key (overwrite-on-key
semantics of `put_vectors`). -/
def Store : Type := List Char → Option VecRecord

/-- `put_vectors`: batch write, each record overwriting any previous
record under the same key. -/
def putVectors (recs : List (List Char × VecRecord)) (st : Store) : Store :=
  recs.foldl (fun acc kv => fun k => if k = kv.1 then some kv.2 else acc k) st

/-- `S3VectorStore.save_chunks` (lines 94–145).  `embed` models
`create_embedding` (`none` = the Bedrock call raises, so the chunk is
skipped and the loop continues); `backendOk` models whether the single
batch `put_vectors` call succeeds.  The key of each prepared vector is
`chunk.source`; if nothing was prepared, or the batch write fails, the
empty list is returned and the store is unchanged. -/
def s3SaveChunks (embed : List Char → Option (List ℚ)) (backendOk : Bool)
    (chunks : List MChunk) (st : Store) : List (List Char) × Store :=
  let prepared := chunks.filterMap (fun ch =>
    (embed ch.content).map (fun e =>
      (ch.source, VecRecord.mk e ch.content ch.content.length ch.source)))
  if prepared = [] then ([], st)
  else if backendOk then (prepared.map Prod.fst, putVectors prepared st)
  else ([], st)

/-- One hit returned by `query_vectors`: the backend's `vectorId`, the
reported `distance` (absent falls back to `1.0` via `.get("distance", 1.0)`),
and the stored metadata's `content` and `source`. -/
structure Hit where
  vectorId : List Char
  distance : Option ℚ
  content : List Char
  source : List Char

/-- A `SearchResult` (`models/document.py`) as built by
`S3VectorStore.search`. -/
structure MSearchResult where
  id : List Char
  content : List Char
  source : List Char
  score : ℚ

/-- The per-hit mapping of `S3VectorStore.search` (lines 164–175):
`score = 1.0 - vector_result.get("distance", 1.0)`, with no clamping. -/
def toSearchResult (h : Hit) : MSearchResult :=
  { id := h.vectorId
    content := h.content
    source := h.source
    score := 1 - h.distance.getD 1 }

/-- `S3VectorStore.search` (lines 147–182): embed the query, query the
backend, map the hits; any failure (`none` from either collaborator,
modelling a raised exception) yields the empty result list. -/
def s3Search (embedQ : Option (List ℚ))
    (queryBackend : List ℚ → Option (List Hit)) : List MSearchResult :=
  match embedQ with
  | none => []
  | some e =>
    match queryBackend e with
    | none => []
    | some hits => hits.map toSearchResult

/-! ## Document Processor (`processors/abs.py`,
`processors/not_implemented.py`) -/

/-- The final path component (`os.path` basename, for `splitext`). -/
def afterLastSlash (fp : List Char) : List Char :=
  (fp.reverse.takeWhile (fun c => c ≠ '/')).reverse

/-- The extension part of `os.path.splitext` on one path component:
everything from the last `'.'` on, except that leading dots do not begin
an extension (`".env"` has extension `""`). -/
def extOf (base : List Char) : List Char :=
  let ds := base.dropWhile (fun c => c = '.')
  if ds.any (fun c => c = '.') then
    '.' :: (ds.reverse.takeWhile (fun c => c ≠ '.')).reverse
  else []

/-- `os.path.splitext(file_path)[1].lower()` as used by
`Processor.supports_file`. -/
def fileExt (fp : List Char) : List Char :=
  (extOf (afterLastSlash fp)).map Char.toLower

/-- `Processor.supports_file`: extension membership in the processor's
declared list. -/
def supportsFile (types : List (List Char)) (fp : List Char) : Bool :=
  (fileExt fp) ∈ types

/-- `Processor.process_file` (`processors/abs.py`, lines 42–79),
parametric over the concrete `chunkify_file` and the vector store's
`save_chunks` (state type `σ`).  Returns false on blank content, on an
unsupported extension and on zero chunks; otherwise saves the chunks and
succeeds iff `len(saved_ids) / len(chunks) > 0.5`. -/
def processFile {σ : Type} (types : List (List Char))
    (chunkify : List Char → List Char → List MChunk)
    (saveChunks : List MChunk → σ → List (List Char) × σ)
    (content fp : List Char) (st : σ) : Bool × σ :=
  if pyStrip content = [] then (false, st)
  else if supportsFile types fp = false then (false, st)
  else
    let chunks := chunkify content fp
    if chunks = [] then (false, st)
    else
      let r := saveChunks chunks st
      (decide ((r.1.length : ℚ) / (chunks.length : ℚ) > 1 / 2), r.2)

/-- `NotImplementedProcessor.chunkify_file`: always the empty chunk list. -/
def notImplementedChunkify (content fp : List Char) : List MChunk :=
  []

/-- `NotImplementedProcessor.process_file` (lines 32–37): overridden to
return `True` unconditionally ("expected behavior"), regardless of
content or extension. -/
def notImplementedProcessFile (types : List (List Char))
    (content fp : List Char) : Bool :=
  true

/-! ## Crawl Orchestrator (`crawler/crawler.py`) -/

/-- The run statistics dictionary of `GitHubCrawler.__init__`. -/
structure Stats where
  total : Nat
  success : Nat
  failed : Nat
  skipped : Nat
  errors : List (List Char)
deriving DecidableEq, Repr

/-- `self.stats` as initialised in `GitHubCrawler.__init__`. -/
def initStats : Stats := ⟨0, 0, 0, 0, []⟩

/-- Outcome of a `processor.process_file` call as observed by the
crawler's `try`: a returned boolean, or a raised exception message. -/
inductive RunOutcome where
  | ok (b : Bool)
  | raised (msg : List Char)

/-- The skip patterns of `GitHubCrawler._should_skip_file`. -/
def skipPatterns : List (List Char) :=
  [".git/".data, "node_modules/".data, "__pycache__/".data,
   ".pytest_cache/".data, "venv/".data, "env/".data, ".env".data,
   "package-lock.json".data, "yarn.lock".data, ".DS_Store".data,
   "Thumbs.db".data]

/-- Python's `pattern in file_path`: substring containment. -/
def containsSub (pat s : List Char) : Bool :=
  (List.range (s.length + 1)).any (fun i => pat.isPrefixOf (s.drop i))

/-- `GitHubCrawler._should_skip_file`. -/
def shouldSkipFile (fp : List Char) : Bool :=
  skipPatterns.any (fun pat => containsSub pat fp)

/-- `GitHubCrawler.process_file` (lines 75–134), parametric over the
collaborators: the skip filter, the extension→processor map (`procFor`),
the content fetcher (`none` models `get_file_content` returning `None`)
and the processor invocation (`run`, whose `raised` outcome lands in the
crawler's `except` branch).  Exactly mirrors the counter updates of the
source: skip-pattern match, missing processor and missing/empty content
are counted as skipped (returning True); a processor returning True/False
counts as success/failure; a raised exception appends to the error log and
counts as failure. -/
def crawlerProcessFile {π : Type} (shouldSkip : List Char → Bool)
    (procFor : List Char → Option π)
    (fetch : List Char → Option (List Char))
    (run : π → List Char → List Char → RunOutcome)
    (fp : List Char) (st : Stats) : Bool × Stats :=
  if shouldSkip fp then (true, { st with skipped := st.skipped + 1 })
  else
    match procFor fp with
    | none => (true, { st with skipped := st.skipped + 1 })
    | some proc =>
      match fetch fp with
      | none => (true, { st with skipped := st.skipped + 1 })
      | some content =>
        if content = [] then (true, { st with skipped := st.skipped + 1 })
        else
          match run proc content fp with
          | RunOutcome.ok true => (true, { st with success := st.success + 1 })
          | RunOutcome.ok false => (false, { st with failed := st.failed + 1 })
          | RunOutcome.raised m =>
              (false, { st with failed := st.failed + 1, errors := st.errors ++ [m] })

/-- The per-file loop of `GitHubCrawler.crawl_repository` (lines 160–183):
`total_files` is incremented for each file, then the file is processed. -/
def crawlFiles {π : Type} (shouldSkip : List Char → Bool)
    (procFor : List Char → Option π)
    (fetch : List Char → Option (List Char))
    (run : π → List Char → List Char → RunOutcome) :
    List (List Char) → Stats → Stats
  | [], st => st
  | fp :: rest, st =>
    crawlFiles shouldSkip procFor fetch run rest
      (crawlerProcessFile shouldSkip procFor fetch run fp
        { st with total := st.total + 1 }).2

/-- The statistics partition invariant of claim C10. -/
def statsInv (st : Stats) : Prop :=
  st.success + st.failed + st.skipped = st.total

/-! ## Lemmas: the segmentation invariants (claim C1) -/

lemma Slices.le {s : List Char} {lo hi : Nat} {l : List (List Char)}
    (h : Slices s lo hi l) : lo ≤ hi := by
  induction h with
  | nil h => exact h
  | cons h1 h2 _ _ _ => omega

lemma Slices.mono_lo {s : List Char} {lo lo' hi : Nat} {l : List (List Char)}
    (hlo : lo' ≤ lo) (h : Slices s lo hi l) : Slices s lo' hi l := by
  cases h with
  | nil h => exact Slices.nil (le_trans hlo h)
  | cons h1 h2 h3 h4 => exact Slices.cons (le_trans hlo h1) h2 h3 h4

lemma Slices.mono_hi {s : List Char} {lo hi hi' : Nat} {l : List (List Char)}
    (hhi : hi ≤ hi') (h : Slices s lo hi l) : Slices s lo hi' l := by
  induction h with
  | nil h => exact Slices.nil (le_trans h hhi)
  | cons h1 h2 h3 _ ih => exact Slices.cons h1 (le_trans h2 hhi) h3 (ih hhi)

lemma Slices.append {s : List Char} {lo mid hi : Nat}
    {l1 l2 : List (List Char)}
    (h1 : Slices s lo mid l1) (h2 : Slices s mid hi l2) :
    Slices s lo hi (l1 ++ l2) := by
  induction h1 with
  | nil h => exact h2.mono_lo h
  | cons ha hb hc _ ih =>
    exact Slices.cons ha (le_trans hb h2.le) hc (ih h2)

lemma slice_length_le {s c : List Char} {off : Nat}
    (hc : c = (s.drop off).take c.length) : c.length ≤ s.length - off := by
  have := congrArg List.length hc
  simp only [List.length_take, List.length_drop] at this
  omega

lemma Slices.shift {s p : List Char} {a lo hi : Nat} {l : List (List Char)}
    (hp : p = (s.drop a).take p.length) (h : Slices p lo hi l) :
    Slices s (a + lo) (a + hi) l := by
  induction h with
  | nil h => exact Slices.nil (by omega)
  | @cons lo hi off c l h1 h2 h3 _ ih =>
    refine @Slices.cons s (a + lo) (a + hi) (a + off) c l (by omega) (by omega) ?_ ih
    have hlen : c.length ≤ p.length - off := slice_length_le h3
    calc c = (p.drop off).take c.length := h3
      _ = (((s.drop a).take p.length).drop off).take c.length := by rw [← hp]
      _ = (((s.drop a).drop off).take (p.length - off)).take c.length := by
            rw [List.drop_take]
      _ = ((s.drop (a + off)).take (p.length - off)).take c.length := by
            rw [List.drop_drop]
      _ = (s.drop (a + off)).take (c.length ⊓ (p.length - off)) := by
            rw [List.take_take]
      _ = (s.drop (a + off)).take c.length := by
            rw [Nat.min_eq_left hlen]

lemma slices_singleton {s c : List Char} {off hi : Nat}
    (h1 : off ≤ hi) (h2 : c = (s.drop off).take c.length) :
    Slices s off hi [c] :=
  Slices.cons (le_refl off) h1 h2 (Slices.nil h1)

lemma chopChars_props {maxSize : Nat} {s c : List Char}
    (h : c ∈ chopChars maxSize s) : c ≠ [] ∧ c.length ≤ max 1 maxSize := by
  induction s using chopChars.induct maxSize with
  | case1 =>
    rw [chopChars] at h
    simp at h
  | case2 x hx hlen =>
    rw [chopChars, if_neg hx, if_pos hlen] at h
    simp only [List.mem_singleton] at h
    subst h
    exact ⟨hx, by omega⟩
  | case3 x hx hlen ih =>
    rw [chopChars, if_neg hx, if_neg hlen] at h
    simp only [List.mem_cons] at h
    rcases h with h | h
    · subst h
      constructor
      · simp only [ne_eq, List.take_eq_nil_iff, not_or]
        exact ⟨by omega, hx⟩
      · simp only [List.length_take]
        omega
    · exact ih h

lemma chopChars_slices (maxSize : Nat) (s : List Char) :
    Slices s 0 s.length (chopChars maxSize s) := by
  induction s using chopChars.induct maxSize with
  | case1 =>
    rw [chopChars]
    simp only [if_pos rfl]
    exact Slices.nil (le_refl 0)
  | case2 x hx hlen =>
    rw [chopChars, if_neg hx, if_pos hlen]
    exact slices_singleton (Nat.zero_le _) (by simp)
  | case3 x hx hlen ih =>
    rw [chopChars, if_neg hx, if_neg hlen]
    have hxpos : 0 < x.length := List.length_pos.mpr hx
    have hk : (1 ⊔ maxSize) ≤ x.length := max_le hxpos (by omega)
    refine Slices.cons (le_refl 0) (Nat.zero_le _) ?_ ?_
    · simp only [List.drop_zero, List.length_take]
      rw [Nat.min_eq_left hk]
    · have hshift := @Slices.shift x (x.drop (1 ⊔ maxSize)) (1 ⊔ maxSize) 0 _ _
        (by rw [List.take_length]) ih
      rw [List.length_drop] at hshift
      have : (1 ⊔ maxSize) + (x.length - (1 ⊔ maxSize)) = x.length := by omega
      rw [this] at hshift
      exact hshift.mono_lo (Nat.zero_le _)

lemma flatten_map_singleton (l : List Char) :
    (l.map (fun c => [c])).flatten = l := by
  induction l with
  | nil => rfl
  | cons c cs ih => simp [ih]

lemma splitKeepSep_flatten (sep s : List Char) :
    (splitKeepSep sep s).flatten = s := by
  induction s using splitKeepSep.induct sep with
  | case1 =>
    rw [splitKeepSep]
    simp
  | case2 x hx hsep =>
    rw [splitKeepSep, dif_neg hx, dif_pos hsep]
    exact flatten_map_singleton x
  | case3 x hx hsep hfind =>
    rw [splitKeepSep, dif_neg hx, dif_neg hsep]
    simp only [hfind, List.flatten_cons, List.flatten_nil, List.append_nil]
  | case4 x hx hsep i hfind ih =>
    rw [splitKeepSep, dif_neg hx, dif_neg hsep]
    simp only [hfind, List.flatten_cons, ih, List.take_append_drop]

lemma goPieces_props {M O : Nat} {recurse : List Char → List (List Char)}
    (hrec : ∀ p c, c ∈ recurse p → c ≠ [] ∧ c.length ≤ max 1 M) :
    ∀ (pieces : List (List Char)) (buf : List Char), buf.length ≤ M →
      ∀ c ∈ goPieces M O recurse buf pieces, c ≠ [] ∧ c.length ≤ max 1 M := by
  intro pieces
  induction pieces with
  | nil =>
    intro buf hbuf c hc
    simp only [goPieces] at hc
    split at hc
    · simp at hc
    · next hb =>
      simp only [List.mem_singleton] at hc
      subst hc
      exact ⟨hb, by omega⟩
  | cons p ps ih =>
    intro buf hbuf c hc
    simp only [goPieces] at hc
    by_cases h1 : p.length ≤ M
    · by_cases h2 : buf.length + p.length ≤ M
      · rw [if_pos h1, if_pos h2] at hc
        exact ih (buf ++ p) (by simp only [List.length_append]; omega) c hc
      · rw [if_pos h1, if_neg h2] at hc
        simp only [List.mem_cons] at hc
        rcases hc with rfl | hc
        · refine ⟨?_, by omega⟩
          intro hbe
          rw [hbe] at h2
          simp only [List.length_nil, Nat.zero_add] at h2
          exact h2 h1
        · refine ih _ ?_ c hc
          split
          · next hcp => simp only [List.length_append] at hcp ⊢; omega
          · exact h1
    · rw [if_neg h1] at hc
      simp only [List.mem_append, List.mem_cons] at hc
      rcases hc with (hc | hc) | hc
      · split at hc
        · simp at hc
        · next hb =>
          simp only [List.mem_singleton] at hc
          subst hc
          exact ⟨hb, by omega⟩
      · exact hrec p c hc
      · exact ih [] (Nat.zero_le M) c hc

lemma goPieces_slices {s : List Char} {M O : Nat}
    {recurse : List Char → List (List Char)}
    (hrec : ∀ p, Slices p 0 p.length (recurse p)) :
    ∀ (pieces : List (List Char)) (buf : List Char) (bufOff : Nat),
      buf = (s.drop bufOff).take buf.length →
      pieces.flatten = s.drop (bufOff + buf.length) →
      bufOff + buf.length ≤ s.length →
      Slices s bufOff s.length (goPieces M O recurse buf pieces) := by
  intro pieces
  induction pieces with
  | nil =>
    intro buf bufOff hbuf hfl hle
    simp only [goPieces]
    split
    · exact Slices.nil (by omega)
    · exact slices_singleton (by omega) hbuf
  | cons p ps ih =>
    intro buf bufOff hbuf hfl hle
    have hflc : p ++ ps.flatten = s.drop (bufOff + buf.length) := by
      simpa using hfl
    have hp : p = (s.drop (bufOff + buf.length)).take p.length := by
      calc p = (p ++ ps.flatten).take p.length := (List.take_left p _).symm
        _ = (s.drop (bufOff + buf.length)).take p.length := by rw [hflc]
    have hps : ps.flatten = s.drop (bufOff + buf.length + p.length) := by
      have hd : ps.flatten = (p ++ ps.flatten).drop p.length :=
        (List.drop_left p _).symm
      rw [hd, hflc, List.drop_drop]
    have hpl : p.length ≤ s.length - (bufOff + buf.length) := slice_length_le hp
    have hpb : bufOff + buf.length + p.length ≤ s.length := by omega
    simp only [goPieces]
    by_cases h1 : p.length ≤ M
    · by_cases h2 : buf.length + p.length ≤ M
      · rw [if_pos h1, if_pos h2]
        refine ih (buf ++ p) bufOff ?_ ?_ ?_
        · rw [List.length_append, List.take_add, ← hbuf, List.drop_drop, ← hp]
        · rw [List.length_append, hps]
          congr 1
          omega
        · rw [List.length_append]
          omega
      · rw [if_pos h1, if_neg h2]
        refine Slices.cons (le_refl bufOff) (by omega) hbuf ?_
        have hdlen : (buf.drop (buf.length - O)).length = buf.length - (buf.length - O) := by
          simp [List.length_drop]
        split
        · next hcp =>
          have hcarry : buf.drop (buf.length - O) =
              (s.drop (bufOff + (buf.length - O))).take (buf.length - (buf.length - O)) := by
            calc buf.drop (buf.length - O)
                = ((s.drop bufOff).take buf.length).drop (buf.length - O) := by
                  rw [← hbuf]
              _ = ((s.drop bufOff).drop (buf.length - O)).take (buf.length - (buf.length - O)) := by
                  rw [List.drop_take]
              _ = (s.drop (bufOff + (buf.length - O))).take (buf.length - (buf.length - O)) := by
                  rw [List.drop_drop]
          refine (ih (buf.drop (buf.length - O) ++ p) (bufOff + (buf.length - O))
            ?_ ?_ ?_).mono_lo (by omega)
          · rw [List.length_append, hdlen, List.take_add, ← hcarry]
            congr 1
            rw [List.drop_drop]
            have harith : bufOff + (buf.length - O) + (buf.length - (buf.length - O)) =
                bufOff + buf.length := by omega
            rw [harith, ← hp]
          · rw [List.length_append, hdlen, hps]
            congr 1
            omega
          · rw [List.length_append, hdlen]
            omega
        · refine (ih p (bufOff + buf.length) hp ?_ ?_).mono_lo (by omega)
          · rw [hps]
          · exact hpb
    · rw [if_neg h1]
      have hpart1 : Slices s bufOff (bufOff + buf.length)
          (if buf = [] then [] else [buf]) := by
        split
        · exact Slices.nil (by omega)
        · exact slices_singleton (by omega) hbuf
      have hpart2 : Slices s (bufOff + buf.length)
          (bufOff + buf.length + p.length) (recurse p) := by
        have hsh := Slices.shift hp (hrec p)
        simpa using hsh
      have hpart3 : Slices s (bufOff + buf.length + p.length) s.length
          (goPieces M O recurse [] ps) := by
        refine ih [] (bufOff + buf.length + p.length) (by simp) ?_
          (by simp only [List.length_nil]; omega)
        rw [hps]
        simp
      exact Slices.append (Slices.append hpart1 hpart2) hpart3

lemma recSplit_props {M O : Nat} : ∀ (seps : List (List Char)) (s : List Char),
    ∀ c ∈ recSplit M O seps s, c ≠ [] ∧ c.length ≤ max 1 M := by
  intro seps
  induction seps with
  | nil => exact fun s c hc => chopChars_props hc
  | cons sep rest ih =>
    intro s c hc
    simp only [recSplit] at hc
    by_cases hlen : s.length ≤ M
    · rw [if_pos hlen] at hc
      split at hc
      · simp at hc
      · next hs =>
        simp only [List.mem_singleton] at hc
        subst hc
        exact ⟨hs, by omega⟩
    · rw [if_neg hlen] at hc
      exact goPieces_props (fun p c hc => ih p c hc) _ [] (Nat.zero_le M) c hc

lemma recSplit_slices {M O : Nat} : ∀ (seps : List (List Char)) (s : List Char),
    Slices s 0 s.length (recSplit M O seps s) := by
  intro seps
  induction seps with
  | nil => exact fun s => chopChars_slices M s
  | cons sep rest ih =>
    intro s
    simp only [recSplit]
    by_cases hlen : s.length ≤ M
    · rw [if_pos hlen]
      split
      · exact Slices.nil (Nat.zero_le _)
      · exact slices_singleton (Nat.zero_le _) (by simp)
    · rw [if_neg hlen]
      refine goPieces_slices (fun p => ih p) _ [] 0 (by simp) ?_ (by simp)
      simpa using splitKeepSep_flatten sep s

/-- C1: for every input text and configured `maxSize`/`overlap`
(`overlap < maxSize`), every chunk produced by the segmentation step of
the Markdown processor is non-empty and at most `maxSize` characters long,
and the chunks occur as substrings of the input at non-decreasing offsets
(document order); the bound holds for all inputs, so an indivisible token
longer than `maxSize` is still forcibly split at the character-fallback
level into chunks of at most `maxSize`. -/
theorem segmentation_bounded_ordered (text : List Char) (maxSize overlap : Nat)
    (hM : 0 < maxSize) (hO : overlap < maxSize) :
    (∀ c ∈ splitText maxSize overlap text, c ≠ [] ∧ c.length ≤ maxSize) ∧
    Slices text 0 text.length (splitText maxSize overlap text) := by
  constructor
  · intro c hc
    have hx := recSplit_props markdownSeparators text c hc
    refine ⟨hx.1, ?_⟩
    have hmax : max 1 maxSize = maxSize := max_eq_right hM
    rw [hmax] at hx
    exact hx.2
  · exact recSplit_slices markdownSeparators text

/-- Witness for C1 at a concrete input: a single 10-character indivisible
token with `maxSize = 4`, `overlap = 2`. -/
theorem segmentation_bounded_ordered_witness :
    0 < 4 ∧ 2 < 4 ∧
    ((∀ c ∈ splitText 4 2 "abcdefghij".data, c ≠ [] ∧ c.length ≤ 4) ∧
      Slices "abcdefghij".data 0 ("abcdefghij".data).length
        (splitText 4 2 "abcdefghij".data)) :=
  ⟨by decide, by decide,
    segmentation_bounded_ordered "abcdefghij".data 4 2 (by decide) (by decide)⟩

/-! ## Lemmas: chunk identity (claim C2) -/

lemma digitVal_digitChar {d : Nat} (hd : d < 10) :
    digitVal (digitChar d) = d := by
  interval_cases d <;> decide

lemma ofDigits_append (l : List Char) (c : Char) :
    ofDigits (l ++ [c]) = 10 * ofDigits l + digitVal c := by
  simp [ofDigits, List.foldl_append]

lemma ofDigits_natRepr (n : Nat) : ofDigits (natRepr n) = n := by
  induction n using natRepr.induct with
  | case1 n hn =>
    rw [natRepr, dif_pos hn]
    simp [ofDigits, digitVal_digitChar hn]
  | case2 n hn ih =>
    rw [natRepr, dif_neg hn, ofDigits_append, ih,
      digitVal_digitChar (Nat.mod_lt n (by omega))]
    omega

lemma natRepr_injective {a b : Nat} (h : natRepr a = natRepr b) : a = b := by
  have := congrArg ofDigits h
  rwa [ofDigits_natRepr, ofDigits_natRepr] at this

lemma assembleAux_source (supply : Nat → List Char) (fp : List Char) :
    ∀ (texts : List (List Char)) (i : Nat),
      ∀ ch ∈ assembleAux supply fp i texts,
        ch.source = fp ++ chunkTag ++ natRepr ch.chunkIndex := by
  intro texts
  induction texts with
  | nil => intro i ch hch; simp [assembleAux] at hch
  | cons t ts ih =>
    intro i ch hch
    rw [assembleAux] at hch
    split at hch
    · exact ih (i + 1) ch hch
    · rcases List.mem_cons.mp hch with rfl | hch
      · rfl
      · exact ih (i + 1) ch hch

lemma assembleAux_index_le (supply : Nat → List Char) (fp : List Char) :
    ∀ (texts : List (List Char)) (i : Nat),
      ∀ ch ∈ assembleAux supply fp i texts, i ≤ ch.chunkIndex := by
  intro texts
  induction texts with
  | nil => intro i ch hch; simp [assembleAux] at hch
  | cons t ts ih =>
    intro i ch hch
    rw [assembleAux] at hch
    split at hch
    · exact le_trans (by omega) (ih (i + 1) ch hch)
    · rcases List.mem_cons.mp hch with rfl | hch
      · exact le_refl i
      · exact le_trans (by omega) (ih (i + 1) ch hch)

lemma assembleAux_pairwise (supply : Nat → List Char) (fp : List Char) :
    ∀ (texts : List (List Char)) (i : Nat),
      (assembleAux supply fp i texts).Pairwise
        (fun a b => a.chunkIndex < b.chunkIndex) := by
  intro texts
  induction texts with
  | nil => intro i; simp [assembleAux]
  | cons t ts ih =>
    intro i
    rw [assembleAux]
    split
    · exact ih (i + 1)
    · refine List.Pairwise.cons ?_ (ih (i + 1))
      intro ch hch
      have := assembleAux_index_le supply fp ts (i + 1) ch hch
      simpa using by omega

lemma source_ne_of_index_ne (fp : List Char) {a b : Nat} (hab : a ≠ b) :
    fp ++ chunkTag ++ natRepr a ≠ fp ++ chunkTag ++ natRepr b := by
  intro h
  rw [List.append_assoc, List.append_assoc] at h
  have h2 := List.append_cancel_left h
  have h3 := List.append_cancel_left h2
  exact hab (natRepr_injective h3)

lemma assembleAux_map_source (s1 s2 : Nat → List Char) (fp : List Char) :
    ∀ (texts : List (List Char)) (i : Nat),
      (assembleAux s1 fp i texts).map MChunk.source =
        (assembleAux s2 fp i texts).map MChunk.source := by
  intro texts
  induction texts with
  | nil => intro i; rfl
  | cons t ts ih =>
    intro i
    rw [assembleAux, assembleAux]
    split
    · exact ih (i + 1)
    · simp only [List.map_cons, ih (i + 1)]

lemma filterMap_embed_keys (embed : List Char → Option (List ℚ)) :
    ∀ chunks : List MChunk, (∀ ch ∈ chunks, (embed ch.content).isSome) →
      (chunks.filterMap (fun ch => (embed ch.content).map (fun e =>
        (ch.source, VecRecord.mk e ch.content ch.content.length ch.source)))).map
          Prod.fst = chunks.map MChunk.source := by
  intro chunks
  induction chunks with
  | nil => intro _; rfl
  | cons ch chs ih =>
    intro hall
    obtain ⟨e, he⟩ := Option.isSome_iff_exists.mp (hall ch (by simp))
    simp only [List.filterMap_cons, he, Option.map_some, List.map_cons]
    exact congrArg _ (ih (fun c hc => hall c (by simp [hc])))

lemma filterMap_embed_ne_nil (embed : List Char → Option (List ℚ))
    {chunks : List MChunk} (hne : chunks ≠ [])
    (hall : ∀ ch ∈ chunks, (embed ch.content).isSome) :
    chunks.filterMap (fun ch => (embed ch.content).map (fun e =>
      (ch.source, VecRecord.mk e ch.content ch.content.length ch.source))) ≠ [] := by
  cases chunks with
  | nil => exact absurd rfl hne
  | cons ch chs =>
    obtain ⟨e, he⟩ := Option.isSome_iff_exists.mp (hall ch (by simp))
    simp [List.filterMap_cons, he]

/-- C2: every chunk assembled by `chunkify_file` has
`source = f"{file_path}#chunk-{i}"` with `i` its metadata `chunk_index`;
the sources are pairwise distinct within the file; when every chunk embeds
successfully and the batch write succeeds, `save_chunks` uses exactly these
sources as the storage keys; and the source keys do not depend on the
random `chunk_id` generator, so re-processing identical content yields
identical keys. -/
theorem chunk_source_key_contract (supply supply2 : Nat → List Char)
    (fp : List Char) (texts : List (List Char)) :
    (∀ ch ∈ assembleChunks supply fp texts,
        ch.source = fp ++ chunkTag ++ natRepr ch.chunkIndex) ∧
    (assembleChunks supply fp texts).Pairwise (fun a b => a.source ≠ b.source) ∧
    (∀ (embed : List Char → Option (List ℚ)) (st : Store),
        (∀ ch ∈ assembleChunks supply fp texts, (embed ch.content).isSome) →
        assembleChunks supply fp texts ≠ [] →
        (s3SaveChunks embed true (assembleChunks supply fp texts) st).1 =
          (assembleChunks supply fp texts).map MChunk.source) ∧
    (assembleChunks supply fp texts).map MChunk.source =
      (assembleChunks supply2 fp texts).map MChunk.source := by
  refine ⟨assembleAux_source supply fp texts 0, ?_, ?_, ?_⟩
  · have hpw := assembleAux_pairwise supply fp texts 0
    refine hpw.imp_of_mem ?_
    intro a b ha hb hlt
    rw [assembleAux_source supply fp texts 0 a ha,
      assembleAux_source supply fp texts 0 b hb]
    exact source_ne_of_index_ne fp (Nat.ne_of_lt hlt)
  · intro embed st hall hne
    rw [s3SaveChunks]
    simp only [if_neg (filterMap_embed_ne_nil embed hne hall), if_pos rfl]
    exact filterMap_embed_keys embed _ hall
  · exact assembleAux_map_source supply supply2 fp texts 0

/-- Witness for C2: concrete file, texts (one blank, so an enumeration
index is skipped), embedder and store. -/
theorem chunk_source_key_contract_witness :
    (∀ ch ∈ assembleChunks (fun _ => []) "a.md".data
        ["hi".data, " ".data, "x".data],
      ((fun _ => some ([] : List ℚ)) ch.content).isSome) ∧
    assembleChunks (fun _ => []) "a.md".data
      ["hi".data, " ".data, "x".data] ≠ [] ∧
    (s3SaveChunks (fun _ => some ([] : List ℚ)) true
        (assembleChunks (fun _ => []) "a.md".data
          ["hi".data, " ".data, "x".data]) (fun _ => none)).1 =
      (assembleChunks (fun _ => []) "a.md".data
        ["hi".data, " ".data, "x".data]).map MChunk.source :=
  ⟨fun _ _ => rfl, by decide,
    (chunk_source_key_contract (fun _ => []) (fun _ => ['u']) "a.md".data
      ["hi".data, " ".data, "x".data]).2.2.1 (fun _ => some []) (fun _ => none)
      (fun _ _ => rfl) (by decide)⟩

/-! ## Lemmas: the persistence gateway (claims C3, C5) -/

lemma putVectors_isSome :
    ∀ (recs : List (List Char × VecRecord)) (st : Store) (k : List Char),
      (st k).isSome → ((putVectors recs st) k).isSome := by
  intro recs
  induction recs with
  | nil => intro st k h; exact h
  | cons r rs ih =>
    intro st k h
    simp only [putVectors, List.foldl_cons]
    refine ih _ k ?_
    by_cases hk : k = r.1 <;> simp [hk, h]

lemma putVectors_mem_isSome :
    ∀ (recs : List (List Char × VecRecord)) (st : Store) (k : List Char),
      k ∈ recs.map Prod.fst → ((putVectors recs st) k).isSome := by
  intro recs
  induction recs with
  | nil => intro st k h; simp at h
  | cons r rs ih =>
    intro st k h
    simp only [List.map_cons, List.mem_cons] at h
    simp only [putVectors, List.foldl_cons]
    rcases h with rfl | h
    · refine putVectors_isSome rs _ _ ?_
      simp
    · exact ih _ k h

lemma s3SaveChunks_preserves (embed : List Char → Option (List ℚ))
    (backendOk : Bool) (chunks : List MChunk) (st : Store) (k : List Char)
    (h : (st k).isSome) :
    ((s3SaveChunks embed backendOk chunks st).2 k).isSome := by
  rw [s3SaveChunks]
  split
  · exact h
  · split
    · exact putVectors_isSome _ st k h
    · exact h

lemma s3SaveChunks_saved_present (embed : List Char → Option (List ℚ))
    (backendOk : Bool) (chunks : List MChunk) (st : Store) (k : List Char)
    (h : k ∈ (s3SaveChunks embed backendOk chunks st).1) :
    ((s3SaveChunks embed backendOk chunks st).2 k).isSome := by
  rw [s3SaveChunks] at h ⊢
  split at h
  · simp at h
  · split at h
    · next hb =>
      simp only [if_neg (by assumption), if_pos hb]
      exact putVectors_mem_isSome _ st k h
    · simp at h

lemma half_lt_ratio_iff {a b : Nat} (hb : 0 < b) :
    (1 / 2 : ℚ) < (a : ℚ) / (b : ℚ) ↔ b < 2 * a := by
  rw [div_lt_div_iff₀ (by norm_num) (show (0 : ℚ) < (b : ℚ) by exact_mod_cast hb),
    one_mul, mul_comm]
  exact_mod_cast Iff.rfl

lemma processFile_run {σ : Type} (types : List (List Char))
    (chunkify : List Char → List Char → List MChunk)
    (saveChunks : List MChunk → σ → List (List Char) × σ)
    (content fp : List Char) (st : σ)
    (h1 : pyStrip content ≠ []) (h2 : supportsFile types fp = true)
    (h3 : chunkify content fp ≠ []) :
    processFile types chunkify saveChunks content fp st =
      (decide ((((saveChunks (chunkify content fp) st).1.length : ℚ) /
          ((chunkify content fp).length : ℚ)) > 1 / 2),
        (saveChunks (chunkify content fp) st).2) := by
  rw [processFile, if_neg h1, h2]
  simp only [Bool.true_eq_false, if_false, if_neg h3]

/-- C3: under the base `Processor.process_file`, with non-blank content, a
supported extension and a non-empty chunk list, the returned boolean is
true iff strictly more than half of the chunks were persisted
(`len(saved_ids)/len(chunks) > 0.5`); and with the S3 gateway, whenever
the result is false every previously stored key and every key the gateway
reported as saved is still present in the resulting store (no rollback). -/
theorem process_file_majority_threshold {σ : Type} (types : List (List Char))
    (chunkify : List Char → List Char → List MChunk)
    (saveChunks : List MChunk → σ → List (List Char) × σ)
    (content fp : List Char) (st : σ)
    (h1 : pyStrip content ≠ []) (h2 : supportsFile types fp = true)
    (h3 : chunkify content fp ≠ []) :
    ((processFile types chunkify saveChunks content fp st).1 = true ↔
      (chunkify content fp).length <
        2 * (saveChunks (chunkify content fp) st).1.length) ∧
    (∀ (embed : List Char → Option (List ℚ)) (backendOk : Bool) (sst : Store),
      (processFile types chunkify (s3SaveChunks embed backendOk)
          content fp sst).1 = false →
      (∀ k, (sst k).isSome →
        ((processFile types chunkify (s3SaveChunks embed backendOk)
            content fp sst).2 k).isSome) ∧
      (∀ k ∈ (s3SaveChunks embed backendOk (chunkify content fp) sst).1,
        ((processFile types chunkify (s3SaveChunks embed backendOk)
            content fp sst).2 k).isSome)) := by
  constructor
  · rw [processFile_run types chunkify saveChunks content fp st h1 h2 h3]
    simp only [decide_eq_true_eq, gt_iff_lt]
    exact half_lt_ratio_iff (List.length_pos.mpr h3)
  · intro embed backendOk sst _
    rw [processFile_run types chunkify _ content fp sst h1 h2 h3]
    constructor
    · intro k hk
      exact s3SaveChunks_preserves embed backendOk _ sst k hk
    · intro k hk
      exact s3SaveChunks_saved_present embed backendOk _ sst k hk

/-- Witness for C3: two chunks, one key reported saved (exactly half, so
the result is false) and an S3 store holding one prior key. -/
theorem process_file_majority_threshold_witness :
    pyStrip "x".data ≠ [] ∧
    supportsFile [".md".data] "a.md".data = true ∧
    (fun _ _ => [MChunk.mk "c1".data "k1".data 0 [],
      MChunk.mk "c2".data "k2".data 1 []]) "x".data "a.md".data ≠
      ([] : List MChunk) ∧
    ((processFile [".md".data]
        (fun _ _ => [MChunk.mk "c1".data "k1".data 0 [],
          MChunk.mk "c2".data "k2".data 1 []])
        (fun _ (s : Unit) => (["k1".data], s)) "x".data "a.md".data ()).1 = true ↔
      ((fun _ _ => [MChunk.mk "c1".data "k1".data 0 [],
        MChunk.mk "c2".data "k2".data 1 []]) "x".data "a.md".data).length <
        2 * ((fun _ (s : Unit) => (["k1".data], s))
          ((fun _ _ => [MChunk.mk "c1".data "k1".data 0 [],
            MChunk.mk "c2".data "k2".data 1 []]) "x".data "a.md".data) ()).1.length) :=
  ⟨by decide, by decide, by decide,
    (process_file_majority_threshold [".md".data]
      (fun _ _ => [MChunk.mk "c1".data "k1".data 0 [],
        MChunk.mk "c2".data "k2".data 1 []])
      (fun _ (s : Unit) => (["k1".data], s)) "x".data "a.md".data ()
      (by decide) (by decide) (by decide)).1⟩

lemma prepared_keys_filter (embed : List Char → Option (List ℚ)) :
    ∀ chunks : List MChunk,
      (chunks.filterMap (fun ch => (embed ch.content).map (fun e =>
        (ch.source, VecRecord.mk e ch.content ch.content.length ch.source)))).map
          Prod.fst =
        (chunks.filter (fun ch => (embed ch.content).isSome)).map MChunk.source := by
  intro chunks
  induction chunks with
  | nil => rfl
  | cons ch chs ih =>
    cases he : embed ch.content with
    | none => simp [List.filterMap_cons, List.filter_cons, he, ih]
    | some e => simp [List.filterMap_cons, List.filter_cons, he, ih]

/-- C5: `save_chunks` returns at most as many keys as it was given chunks;
with a healthy backend the keys are exactly the sources of the chunks
whose individual embedding succeeded (failed chunks are skipped, the rest
are still processed); and when the batch write to the backend fails the
result is the empty key list with the store unchanged — never a partial
key list. -/
theorem save_chunks_failure_policy (embed : List Char → Option (List ℚ))
    (chunks : List MChunk) (st : Store) :
    (∀ backendOk, (s3SaveChunks embed backendOk chunks st).1.length ≤
      chunks.length) ∧
    ((s3SaveChunks embed true chunks st).1 =
      (chunks.filter (fun ch => (embed ch.content).isSome)).map MChunk.source) ∧
    s3SaveChunks embed false chunks st = ([], st) := by
  refine ⟨?_, ?_, ?_⟩
  · intro backendOk
    rw [s3SaveChunks]
    split
    · simp
    · split
      · simpa using List.length_filterMap_le _ chunks
      · simp
  · rw [s3SaveChunks]
    split
    · next hp =>
      rw [← prepared_keys_filter embed chunks, hp]
      rfl
    · simp only [if_pos rfl]
      exact prepared_keys_filter embed chunks
  · rw [s3SaveChunks]
    split
    · rfl
    · simp

/-! ## Lemmas: processor guard conditions (claim C4) -/

/-- C4 counterexample: the `NotImplementedProcessor` variant declared for
`{.py, .js}` does not return false on empty content — its overridden
`process_file` returns `True` unconditionally. -/
theorem notimplemented_returns_true_on_empty :
    notImplementedProcessFile [".py".data, ".js".data] [] "a.py".data ≠ false := by
  decide

/-- C4 (amended): processors using the base `Processor.process_file`
return false whenever the content is blank, the extension is unsupported,
or chunking yields zero chunks; the `NotImplementedProcessor` variants
always produce zero chunks from `chunkify_file`, while their overridden
`process_file` returns true (reporting the skip as expected behavior)
without throwing. -/
theorem process_file_false_guards :
    (∀ (σ : Type) (types : List (List Char))
      (chunkify : List Char → List Char → List MChunk)
      (saveChunks : List MChunk → σ → List (List Char) × σ)
      (content fp : List Char) (st : σ),
      (pyStrip content = [] ∨ supportsFile types fp = false ∨
        chunkify content fp = []) →
      (processFile types chunkify saveChunks content fp st).1 = false) ∧
    (∀ content fp : List Char, notImplementedChunkify content fp = []) ∧
    (∀ content fp : List Char,
      notImplementedProcessFile [".py".data, ".js".data] content fp = true) := by
  refine ⟨?_, fun _ _ => rfl, fun _ _ => rfl⟩
  intro σ types chunkify saveChunks content fp st h
  rw [processFile]
  rcases h with h | h | h
  · rw [if_pos h]
  · by_cases hc : pyStrip content = []
    · rw [if_pos hc]
    · rw [if_neg hc, h]
      simp
  · by_cases hc : pyStrip content = []
    · rw [if_pos hc]
    · rw [if_neg hc]
      by_cases hs : supportsFile types fp = false
      · rw [if_pos hs]
      · rw [if_neg hs]
        simp [h]

/-- Witness for C4 at concrete inputs: a chunker yielding zero chunks. -/
theorem process_file_false_guards_witness :
    (pyStrip "x".data = [] ∨ supportsFile [".md".data] "a.md".data = false ∨
      (fun _ _ => ([] : List MChunk)) "x".data "a.md".data = []) ∧
    (processFile [".md".data] (fun _ _ => ([] : List MChunk))
      (fun _ (s : Unit) => ([], s)) "x".data "a.md".data ()).1 = false :=
  ⟨Or.inr (Or.inr rfl),
    process_file_false_guards.1 Unit [".md".data] (fun _ _ => [])
      (fun _ (s : Unit) => ([], s)) "x".data "a.md".data ()
      (Or.inr (Or.inr rfl))⟩

/-! ## Lemmas: the retrieval engine (claims C6, C7) -/

/-- C6: every backend hit with reported distance `d` is mapped to a
`SearchResult` with score exactly `1 - d`, with no clamping: distance 0.3
yields 0.7, distance 1.4 yields the negative score -0.4; and `search`
returns exactly the per-hit mapping of the backend's hit list. -/
theorem search_score_passthrough :
    (∀ (h : Hit) (d : ℚ), h.distance = some d →
      (toSearchResult h).score = 1 - d) ∧
    (∀ (e : List ℚ) (qb : List ℚ → Option (List Hit)) (hits : List Hit),
      qb e = some hits → s3Search (some e) qb = hits.map toSearchResult) ∧
    (toSearchResult (Hit.mk [] (some (3 / 10)) [] [])).score = 7 / 10 ∧
    (toSearchResult (Hit.mk [] (some (14 / 10)) [] [])).score = -(4 / 10) := by
  refine ⟨?_, ?_, ?_, ?_⟩
  · intro h d hd
    simp [toSearchResult, hd]
  · intro e qb hits hq
    simp [s3Search, hq]
  · norm_num [toSearchResult]
  · norm_num [toSearchResult]

/-- Witness for C6 at a concrete hit and backend. -/
theorem search_score_passthrough_witness :
    (toSearchResult (Hit.mk [] (some (3 / 10)) [] [])).score = 1 - 3 / 10 ∧
    s3Search (some []) (fun _ => some [Hit.mk [] (some (3 / 10)) [] []]) =
      [Hit.mk [] (some (3 / 10)) [] []].map toSearchResult :=
  ⟨search_score_passthrough.1 _ (3 / 10) rfl,
    search_score_passthrough.2.1 [] _ _ rfl⟩

/-- C7: if embedding the query fails (the Bedrock call raises) or the
backend query fails, `search` returns the empty result list instead of
propagating the exception. -/
theorem search_errors_empty (qb : List ℚ → Option (List Hit)) :
    s3Search none qb = [] ∧
    (∀ e : List ℚ, qb e = none → s3Search (some e) qb = []) := by
  constructor
  · rfl
  · intro e he
    simp [s3Search, he]

/-- Witness for C7 with a concretely failing backend. -/
theorem search_errors_empty_witness :
    s3Search none (fun _ : List ℚ => (none : Option (List Hit))) = [] ∧
    s3Search (some []) (fun _ : List ℚ => (none : Option (List Hit))) = [] :=
  ⟨(search_errors_empty _).1, (search_errors_empty _).2 [] rfl⟩

/-! ## Lemmas: the crawl orchestrator (claims C8, C9, C10) -/

lemma crawlerProcessFile_counters {π : Type} (shouldSkip : List Char → Bool)
    (procFor : List Char → Option π) (fetch : List Char → Option (List Char))
    (run : π → List Char → List Char → RunOutcome)
    (fp : List Char) (st : Stats) :
    ((crawlerProcessFile shouldSkip procFor fetch run fp st).2.total = st.total) ∧
    (((crawlerProcessFile shouldSkip procFor fetch run fp st).2.success =
          st.success + 1 ∧
        (crawlerProcessFile shouldSkip procFor fetch run fp st).2.failed =
          st.failed ∧
        (crawlerProcessFile shouldSkip procFor fetch run fp st).2.skipped =
          st.skipped) ∨
      ((crawlerProcessFile shouldSkip procFor fetch run fp st).2.success =
          st.success ∧
        (crawlerProcessFile shouldSkip procFor fetch run fp st).2.failed =
          st.failed + 1 ∧
        (crawlerProcessFile shouldSkip procFor fetch run fp st).2.skipped =
          st.skipped) ∨
      ((crawlerProcessFile shouldSkip procFor fetch run fp st).2.success =
          st.success ∧
        (crawlerProcessFile shouldSkip procFor fetch run fp st).2.failed =
          st.failed ∧
        (crawlerProcessFile shouldSkip procFor fetch run fp st).2.skipped =
          st.skipped + 1)) := by
  rw [crawlerProcessFile]
  by_cases hs : shouldSkip fp = true
  · simp [hs]
  · simp only [Bool.not_eq_true] at hs
    cases hpf : procFor fp with
    | none => simp [hs, hpf]
    | some proc =>
      cases hf : fetch fp with
      | none => simp [hs, hpf, hf]
      | some content =>
        by_cases hcc : content = []
        · simp [hs, hpf, hf, hcc]
        · cases hr : run proc content fp with
          | ok b => cases b <;> simp [hs, hpf, hf, hcc, hr]
          | raised m => simp [hs, hpf, hf, hcc, hr]

/-- C8 counterexample: a `.py` file handled by the registered
`NotImplementedProcessor` is counted as a successful embedding, not as
skipped — the crawl's `process_file` sees the processor return `True`. -/
theorem unimplemented_type_counted_as_success :
    ((crawlerProcessFile shouldSkipFile
        (fun fp => if fileExt fp = ".py".data then some () else none)
        (fun _ => some "x".data)
        (fun _ content fp => RunOutcome.ok
          (notImplementedProcessFile [".py".data, ".js".data] content fp))
        "script.py".data initStats).2.skipped = 0) ∧
    ((crawlerProcessFile shouldSkipFile
        (fun fp => if fileExt fp = ".py".data then some () else none)
        (fun _ => some "x".data)
        (fun _ content fp => RunOutcome.ok
          (notImplementedProcessFile [".py".data, ".js".data] content fp))
        "script.py".data initStats).2.success = 1) := by
  decide

/-- C8 (amended): skip-pattern matches and files with no registered
processor are counted only as skipped (the error log, the failed counter
and the success counter are untouched); files whose type is handled by a
registered `NotImplementedProcessor` are instead counted as successful;
and the 5-file scenario (2 skip-pattern matches, 1 extension with no
registered processor, 2 valid Markdown files that process successfully)
ends with `total_files = 5, skipped_files = 3, successful_embeddings = 2`
and an empty error log. -/
theorem skip_and_no_processor_only_skipped :
    (∀ (π : Type) (procFor : List Char → Option π)
      (fetch : List Char → Option (List Char))
      (run : π → List Char → List Char → RunOutcome)
      (shouldSkip : List Char → Bool) (fp : List Char) (st : Stats),
      shouldSkip fp = true →
      crawlerProcessFile shouldSkip procFor fetch run fp st =
        (true, { st with skipped := st.skipped + 1 })) ∧
    (∀ (π : Type) (procFor : List Char → Option π)
      (fetch : List Char → Option (List Char))
      (run : π → List Char → List Char → RunOutcome)
      (shouldSkip : List Char → Bool) (fp : List Char) (st : Stats),
      shouldSkip fp = false → procFor fp = none →
      crawlerProcessFile shouldSkip procFor fetch run fp st =
        (true, { st with skipped := st.skipped + 1 })) ∧
    crawlFiles shouldSkipFile
      (fun fp => if fileExt fp = ".md".data then some () else none)
      (fun _ => some "hello".data) (fun _ _ _ => RunOutcome.ok true)
      ["node_modules/a.md".data, ".git/config".data, "main.rs".data,
        "README.md".data, "docs/guide.md".data] initStats =
      ⟨5, 2, 0, 3, []⟩ := by
  refine ⟨?_, ?_, by decide⟩
  · intro π procFor fetch run shouldSkip fp st h
    simp [crawlerProcessFile, h]
  · intro π procFor fetch run shouldSkip fp st h1 h2
    simp [crawlerProcessFile, h1, h2]

/-- Witness for C8's universally quantified parts at concrete inputs. -/
theorem skip_and_no_processor_only_skipped_witness :
    shouldSkipFile "node_modules/x.md".data = true ∧
    crawlerProcessFile shouldSkipFile (fun _ => (none : Option Unit))
      (fun _ => none) (fun _ _ _ => RunOutcome.ok true)
      "node_modules/x.md".data initStats =
      (true, { initStats with skipped := initStats.skipped + 1 }) :=
  ⟨by decide,
    skip_and_no_processor_only_skipped.1 Unit (fun _ => none) (fun _ => none)
      (fun _ _ _ => RunOutcome.ok true) shouldSkipFile
      "node_modules/x.md".data initStats (by decide)⟩

/-- C9 counterexample: a Markdown file whose fetch returns `None` is
counted as skipped — the error log stays empty and the failed counter
stays 0, contradicting "recorded in the error log and reflected in the
failure counters". -/
theorem fetch_failure_not_error_logged :
    ((crawlerProcessFile shouldSkipFile
        (fun fp => if fileExt fp = ".md".data then some () else none)
        (fun _ => (none : Option (List Char))) (fun _ _ _ => RunOutcome.ok true)
        "README.md".data initStats).2.errors = []) ∧
    ((crawlerProcessFile shouldSkipFile
        (fun fp => if fileExt fp = ".md".data then some () else none)
        (fun _ => (none : Option (List Char))) (fun _ _ _ => RunOutcome.ok true)
        "README.md".data initStats).2.failed = 0) ∧
    ((crawlerProcessFile shouldSkipFile
        (fun fp => if fileExt fp = ".md".data then some () else none)
        (fun _ => (none : Option (List Char))) (fun _ _ _ => RunOutcome.ok true)
        "README.md".data initStats).2.skipped = 1) := by
  decide

/-- C9 (amended): when the fetch of a file's content returns `None` or
empty content (`if not content` in the crawler treats both identically),
the crawl records the file as skipped — the skipped counter is
incremented, nothing is appended to the error log and the failed counter
is unchanged — and the run continues with the remaining files. -/
theorem fetch_failure_skipped_and_continues (π : Type)
    (shouldSkip : List Char → Bool) (procFor : List Char → Option π)
    (fetch : List Char → Option (List Char))
    (run : π → List Char → List Char → RunOutcome)
    (fp : List Char) (rest : List (List Char)) (st : Stats) (proc : π)
    (h1 : shouldSkip fp = false) (h2 : procFor fp = some proc)
    (h3 : fetch fp = none ∨ fetch fp = some []) :
    crawlerProcessFile shouldSkip procFor fetch run fp st =
      (true, { st with skipped := st.skipped + 1 }) ∧
    crawlFiles shouldSkip procFor fetch run (fp :: rest) st =
      crawlFiles shouldSkip procFor fetch run rest
        { st with total := st.total + 1, skipped := st.skipped + 1 } := by
  have hstep : ∀ st2 : Stats,
      crawlerProcessFile shouldSkip procFor fetch run fp st2 =
        (true, { st2 with skipped := st2.skipped + 1 }) := by
    intro st2
    rcases h3 with h3 | h3 <;> simp [crawlerProcessFile, h1, h2, h3]
  refine ⟨hstep st, ?_⟩
  rw [crawlFiles, hstep]

/-- Witness for C9 at concrete collaborators, exercising both the
`None`-returning fetcher and the empty-content fetcher. -/
theorem fetch_failure_skipped_and_continues_witness :
    shouldSkipFile "README.md".data = false ∧
    (fun fp => if fileExt fp = ".md".data then some () else none)
      "README.md".data = some () ∧
    crawlerProcessFile shouldSkipFile
      (fun fp => if fileExt fp = ".md".data then some () else none)
      (fun _ => (none : Option (List Char))) (fun _ _ _ => RunOutcome.ok true)
      "README.md".data initStats =
      (true, { initStats with skipped := initStats.skipped + 1 }) ∧
    crawlerProcessFile shouldSkipFile
      (fun fp => if fileExt fp = ".md".data then some () else none)
      (fun _ => some ([] : List Char)) (fun _ _ _ => RunOutcome.ok true)
      "README.md".data initStats =
      (true, { initStats with skipped := initStats.skipped + 1 }) :=
  ⟨by decide, by decide,
    (fetch_failure_skipped_and_continues Unit shouldSkipFile
      (fun fp => if fileExt fp = ".md".data then some () else none)
      (fun _ => none) (fun _ _ _ => RunOutcome.ok true)
      "README.md".data [] initStats () (by decide) (by decide) (Or.inl rfl)).1,
    (fetch_failure_skipped_and_continues Unit shouldSkipFile
      (fun fp => if fileExt fp = ".md".data then some () else none)
      (fun _ => some []) (fun _ _ _ => RunOutcome.ok true)
      "README.md".data [] initStats () (by decide) (by decide) (Or.inr rfl)).1⟩

/-- C10: each call of the crawler's per-file processing leaves
`total_files` unchanged and increments exactly one of the three outcome
counters, so at every point between file iterations
`successful_embeddings + failed_embeddings + skipped_files = total_files`
(the counters partition the files seen so far, starting from the
all-zero statistics). -/
theorem stats_partition_invariant (π : Type) (shouldSkip : List Char → Bool)
    (procFor : List Char → Option π) (fetch : List Char → Option (List Char))
    (run : π → List Char → List Char → RunOutcome) :
    (∀ (fp : List Char) (st : Stats),
      ((crawlerProcessFile shouldSkip procFor fetch run fp st).2.total =
        st.total) ∧
      ((crawlerProcessFile shouldSkip procFor fetch run fp st).2.success +
          (crawlerProcessFile shouldSkip procFor fetch run fp st).2.failed +
          (crawlerProcessFile shouldSkip procFor fetch run fp st).2.skipped =
        st.success + st.failed + st.skipped + 1)) ∧
    (∀ (files : List (List Char)) (st : Stats), statsInv st →
      statsInv (crawlFiles shouldSkip procFor fetch run files st)) ∧
    (∀ files : List (List Char),
      statsInv (crawlFiles shouldSkip procFor fetch run files initStats)) := by
  have hcall : ∀ (fp : List Char) (st : Stats),
      ((crawlerProcessFile shouldSkip procFor fetch run fp st).2.total =
        st.total) ∧
      ((crawlerProcessFile shouldSkip procFor fetch run fp st).2.success +
          (crawlerProcessFile shouldSkip procFor fetch run fp st).2.failed +
          (crawlerProcessFile shouldSkip procFor fetch run fp st).2.skipped =
        st.success + st.failed + st.skipped + 1) := by
    intro fp st
    obtain ⟨ht, hd⟩ := crawlerProcessFile_counters shouldSkip procFor fetch run fp st
    refine ⟨ht, ?_⟩
    rcases hd with ⟨h1, h2, h3⟩ | ⟨h1, h2, h3⟩ | ⟨h1, h2, h3⟩ <;>
      rw [h1, h2, h3] <;> omega
  have hloop : ∀ (files : List (List Char)) (st : Stats), statsInv st →
      statsInv (crawlFiles shouldSkip procFor fetch run files st) := by
    intro files
    induction files with
    | nil => intro st h; exact h
    | cons fp rest ih =>
      intro st h
      rw [crawlFiles]
      apply ih
      obtain ⟨ht, hsum⟩ := hcall fp { st with total := st.total + 1 }
      rw [statsInv] at h ⊢
      rw [ht, hsum]
      simp only []
      omega
  exact ⟨hcall, hloop, fun files => hloop files initStats rfl⟩

/-- Witness for C10's invariant part at a concrete crawl. -/
theorem stats_partition_invariant_witness :
    statsInv initStats ∧
    statsInv (crawlFiles shouldSkipFile (fun _ => (none : Option Unit))
      (fun _ => none) (fun _ _ _ => RunOutcome.ok true)
      ["a.md".data, "b.py".data] initStats) :=
  ⟨rfl,
    (stats_partition_invariant Unit shouldSkipFile (fun _ => none)
      (fun _ => none) (fun _ _ _ => RunOutcome.ok true)).2.1
      ["a.md".data, "b.py".data] initStats rfl⟩

end Crawler
